import Mathlib

/-!
Verification of the COWOLF (Copy-On-Write Optimized for Large Files)
subsystem: the in-memory data-range-map algebra (`drm_mem.c`), the DRM
store (`drm_file.c`) and the facade (`cowolf.c`).

Machine integers are modelled as `Nat`; the C code's `uint64_t`
arithmetic wraps, so every place where the source can overflow is
modelled with an explicit `% 2^64` (see `rec_merge` and
`drmf_add_entry_recs`).  Offsets and lengths (`off_t`, `size_t`) are
non-negative at every call site modelled here.
-/

/-- Wrap-around modulus of the C `uint64_t` arithmetic. -/
def U64 : Nat := 2 ^ 64

/-- Largest `uint64_t` value, the C `UINT64_MAX`. -/
def U64MAX : Nat := 2 ^ 64 - 1

/-- One data-range record, `struct drmm_rec` of `drm_mem.h`: an inclusive
byte interval `[off_start, off_end]`. -/
structure DrmmRec where
  off_start : Nat
  off_end : Nat
deriving DecidableEq, Repr

/-- Read `recs[i]`.  The C code only ever indexes in bounds; the default
record is never relied upon by any proof. -/
def recGetD (recs : List DrmmRec) (i : Nat) : DrmmRec :=
  recs.getD i ⟨0, 0⟩

/-- The comparison function `comp_sml_or_eql` of `drm_mem.c`: treats the
element at index `i` as equal to `key` when `key = off_start`, or when
`off_start < key` and the element is the last one or the next element
starts above `key`. -/
def comp_sml_or_eql (key : Nat) (recs : List DrmmRec) (i : Nat) : Ordering :=
  let elem := recGetD recs i
  if key = elem.off_start then Ordering.eq
  else if key < elem.off_start then Ordering.lt
  else if i = recs.length - 1 then Ordering.eq
  else if key < (recGetD recs (i + 1)).off_start then Ordering.eq
  else Ordering.gt

/-- The C library `bsearch` halving loop on the index interval `[l, u)`.
The fuel argument only bounds the recursion; `fuel = u - l` always
suffices because the interval strictly shrinks at every step. -/
def bsearchAux (cmp : Nat → Ordering) : Nat → Nat → Nat → Option Nat
  | 0, _, _ => none
  | fuel + 1, l, u =>
    if l < u then
      match cmp ((l + u) / 2) with
      | Ordering.lt => bsearchAux cmp fuel l ((l + u) / 2)
      | Ordering.gt => bsearchAux cmp fuel ((l + u) / 2 + 1) u
      | Ordering.eq => some ((l + u) / 2)
    else none

/-- The `bsearch(key, recs, n, ...)` call: search the whole index range `[0, n)`. -/
def bsearchIdx (cmp : Nat → Ordering) (n : Nat) : Option Nat :=
  bsearchAux cmp n 0 n

/-- The function `search_sml_or_eql` of `drm_mem.c`: index of the record
with the greatest `off_start ≤ key`, found by `bsearch`, or `-1` when
`bsearch` returns `NULL`. -/
def search_sml_or_eql (key : Nat) (recs : List DrmmRec) : Int :=
  match bsearchIdx (comp_sml_or_eql key recs) recs.length with
  | none => -1
  | some i => (i : Int)

/-- The function `rec_merge` of `drm_mem.c`.  Returns whether the merge
happened together with the updated `left` record.  The test
`left->off_end + 1 < right->off_start` is `uint64_t` arithmetic, so the
increment wraps: when `off_end = U64MAX` the left side of the comparison
is `0`. -/
def rec_merge (left right : DrmmRec) : Bool × DrmmRec :=
  if (left.off_end + 1) % U64 < right.off_start then (false, left)
  else (true, { left with off_end := max right.off_end left.off_end })

/-- The forward cascade-merge loop at the end of `drmm_rec_insert`:
keep absorbing the records after the inserted one while `rec_merge`
succeeds, then the gap is closed (here: the absorbed records are simply
dropped from the list). -/
def cascade (ins : DrmmRec) (rest : List DrmmRec) : DrmmRec × List DrmmRec :=
  match rest with
  | [] => (ins, [])
  | r :: rs =>
    match rec_merge ins r with
    | (true, ins2) => cascade ins2 rs
    | (false, _) => (ins, r :: rs)

/-- The function `drmm_rec_insert` of `drm_mem.c`.  The C array plus
count is modelled as a list (the extra capacity slot of the buffer is
implicit).  Step 1: find the predecessor of `ne.off_start`; step 2:
merge in place or materialize `ne` after it (or at index 0); step 3:
cascade-merge forward from the inserted record. -/
def drmm_rec_insert (ne : DrmmRec) (recs : List DrmmRec) : List DrmmRec :=
  let pred := search_sml_or_eql ne.off_start recs
  let step :=
    if 0 ≤ pred then
      let p := pred.toNat
      let m := rec_merge (recGetD recs p) ne
      if m.1 then (p, recs.set p m.2)
      else (p + 1, recs.take (p + 1) ++ ne :: recs.drop (p + 1))
    else (0, ne :: recs)
  let insIdx := step.1
  let arr := step.2
  let cas := cascade (recGetD arr insIdx) (arr.drop (insIdx + 1))
  arr.take insIdx ++ cas.1 :: cas.2

/-- The function `drmm_rec_truncate` of `drm_mem.c`: clips the array so
that it covers only `[0, new_size - 1]`.  The caller passes the array
without its sentinel record (modelled by the caller handing over the
shortened list). -/
def drmm_rec_truncate (new_size : Nat) (recs : List DrmmRec) : List DrmmRec :=
  if new_size = 0 ∨ recs.length = 0 then []
  else
    let last_off := new_size - 1
    let indx := search_sml_or_eql last_off recs
    if indx < 0 then []
    else
      let i := indx.toNat
      let r := recGetD recs i
      recs.take i ++ [{ r with off_end := min r.off_end last_off }]

/-- The scan loop of `drmm_rec_find_overlaps`: walk the records from
absolute index `i` (the list argument is the corresponding suffix of
the array) while `off_start ≤ range_end`; records with
`off_end < offset` are skipped, the rest are counted and the first
counted index is recorded. -/
def olapLoop (offset range_end : Nat) :
    List DrmmRec → Nat → Nat → Nat → Nat × Nat
  | [], _, first, cnt => (first, cnt)
  | r :: rs, i, first, cnt =>
    if r.off_start ≤ range_end then
      if r.off_end < offset then
        olapLoop offset range_end rs (i + 1) first cnt
      else
        olapLoop offset range_end rs (i + 1) (if cnt = 0 then i else first) (cnt + 1)
    else (first, cnt)

/-- The function `drmm_rec_find_overlaps` of `drm_mem.c`: returns
`(first_index, count)` for the records intersecting
`[offset, offset + len - 1]`.  `Int.toNat` of the search result encodes
the C `if (indx < 0) indx = 0;`. -/
def drmm_rec_find_overlaps (offset len : Nat) (recs : List DrmmRec) : Nat × Nat :=
  if len = 0 ∨ recs.length = 0 then (0, 0)
  else
    let range_end := offset + len - 1
    let indx := (search_sml_or_eql offset recs).toNat
    olapLoop offset range_end (recs.drop indx) indx 0 0

/-- One public map entry, `struct drmf_entry` of `drm_file.h`. -/
structure DrmfEntry where
  offset : Nat
  len : Nat
deriving DecidableEq, Repr

/-- Outcome of `file_load` of `drm_file.c`.  `corrupt` is the
`goto error_out` return; `oob` marks the execution that reaches the
sentinel check `buf[num_rec - 1]` with `num_rec = 0`, where the
unsigned index wraps and the access is out of the buffer's bounds. -/
inductive LoadResult where
  | ok (recs : List DrmmRec)
  | corrupt
  | oob
deriving DecidableEq, Repr

/-- The record size `RECSZ = sizeof(struct drmm_rec)` = 16 bytes. -/
def RECSZ : Nat := 16

/-- The sanity-checking part of `file_load` of `drm_file.c`: `st_size`
is the file's byte length and `fileRecs` the records stored in it (the
`pread` is assumed to return them in full).  The C code checks
`st_size % RECSZ`, then unconditionally evaluates
`buf[num_rec - 1].off_end != UINT64_MAX`; for a zero-length file
`num_rec` is `0` and the unsigned index `num_rec - 1` wraps, so the
access is out of bounds, modelled by the `oob` outcome. -/
def file_load (st_size : Nat) (fileRecs : List DrmmRec) : LoadResult :=
  if st_size % RECSZ ≠ 0 then LoadResult.corrupt
  else
    let num_rec := st_size / RECSZ
    if num_rec = 0 then LoadResult.oob
    else
      let buf := fileRecs.take num_rec
      if (recGetD buf (num_rec - 1)).off_end ≠ U64MAX then LoadResult.corrupt
      else LoadResult.ok buf

/-- The in-memory effect of `drmf_add_entry` of `drm_file.c` on the
loaded record array: build `new_rec = { offset, offset + len - 1 }`
(the `off_end` field is computed in `uint64_t`, hence the `% U64`:
with `len = 0` it wraps to `offset - 1 mod 2^64`) and insert it.
Locking and the save round-trip are not modelled. -/
def drmf_add_entry_recs (offset len : Nat) (recs : List DrmmRec) : List DrmmRec :=
  drmm_rec_insert ⟨offset, (offset + len + U64 - 1) % U64⟩ recs

/-- The clipping of one record to the query window used by
`drmf_get_entries`: `offset = max(off_start, range_st)` and
`len = min(off_end, range_en) - offset + 1` (exact in `Nat` whenever
the record overlaps the window, which holds for every record produced
by `drmm_rec_find_overlaps`). -/
def clipRec (range_st range_en : Nat) (r : DrmmRec) : DrmfEntry :=
  { offset := max r.off_start range_st
    len := min r.off_end range_en - max r.off_start range_st + 1 }

/-- The pure core of `drmf_get_entries` of `drm_file.c` on the loaded
record array: find the overlapping records and clip each one to the
query window. -/
def drmf_get_entries_recs (offset len : Nat) (recs : List DrmmRec) : List DrmfEntry :=
  if len = 0 then []
  else
    let fo := drmm_rec_find_overlaps offset len recs
    if fo.2 = 0 then []
    else
      (List.range fo.2).map (fun i =>
        clipRec offset (offset + len - 1) (recGetD recs (fo.1 + i)))

/-- Read `entries[i]` of a public entry list. -/
def entGetD (es : List DrmfEntry) (i : Nat) : DrmfEntry :=
  es.getD i ⟨0, 0⟩

/-- Record `r` intersects the inclusive query window `[off, re]`. -/
def overlapsWin (off re : Nat) (r : DrmmRec) : Prop :=
  r.off_start ≤ re ∧ off ≤ r.off_end

instance (off re : Nat) (r : DrmmRec) : Decidable (overlapsWin off re r) :=
  inferInstanceAs (Decidable (_ ∧ _))

/-- The in-memory effect of `drmf_trunc` of `drm_file.c` on the loaded
record array: remember the sentinel's start, truncate the array without
its last record, then insert a fresh sentinel starting at
`min(saved_last_start, new_size)`. -/
def drmf_trunc_recs (new_size : Nat) (recs : List DrmmRec) : List DrmmRec :=
  let saved_last_start := (recGetD recs (recs.length - 1)).off_start
  let truncated := drmm_rec_truncate new_size (recs.take (recs.length - 1))
  let ns := if saved_last_start < new_size then saved_last_start else new_size
  drmm_rec_insert ⟨ns, U64MAX⟩ truncated

/-- Per-file handle `struct cwf_info` of `cowolf.h`. -/
structure CwfInfo where
  cwf_on : Nat
  lower_fd : Int
  drmap_fd : Int
deriving DecidableEq, Repr

/-- Result of a `stat` call on the DRM path: success, `ENOENT`, or any
other error. -/
inductive StatRes where
  | ok
  | enoent
  | err
deriving DecidableEq, Repr

/-- The function `has_datamap` of `cowolf.c`: `false` when the path
composition fails or `stat` fails with `ENOENT`; `true` when `stat`
succeeds or fails with any other error. -/
def has_datamap (pathsOk : Bool) (st : StatRes) : Bool :=
  if !pathsOk then false
  else
    match st with
    | StatRes.ok => true
    | StatRes.enoent => false
    | StatRes.err => true

/-- The Linux errno value for an I/O error. -/
def eioCode : Nat := 5

/-- Result of `cowolf_open`: success with the filled handle, or failure
with the `errno` value. -/
inductive OpenResult where
  | ok (cw : CwfInfo)
  | err (errno : Nat)
deriving DecidableEq, Repr

/-- The `branch > 0` arm of `cowolf_open` of `cowolf.c` (lines
272-290): the handle is zeroed (`cwf_on = 0`, both fds `-1`); if a
datamap exists on the lower branch the call fails with errno 5 (I/O error), otherwise
it succeeds with the zeroed handle. -/
def cowolf_open_lower (pathsOk : Bool) (st : StatRes) : OpenResult :=
  if has_datamap pathsOk st then OpenResult.err eioCode
  else OpenResult.ok ⟨0, -1, -1⟩

/-- Observable outcome of `cowolf_destroy_datamap`: which unlink
attempts ran, and the returned value. -/
structure DestroyOutcome where
  triedDrm : Bool
  triedLink : Bool
  ret : Int
deriving DecidableEq, Repr

/-- The function `cowolf_destroy_datamap` of `cowolf.c`: return `0`
when no datamap exists; otherwise run `drmf_destroy` on the map path
(result `drmRes`), then `unlink` on the link path (result `linkRes`),
and return `res` — which the source overwrites with the second result,
so the returned value is exactly `linkRes`. -/
def cowolf_destroy_datamap (hasMap pathsOk : Bool) (drmRes linkRes : Int) :
    DestroyOutcome :=
  if !hasMap then ⟨false, false, 0⟩
  else if !pathsOk then ⟨false, false, -1⟩
  else ⟨true, true, linkRes⟩

/-- Which backing file a byte of a scatter-gather read is taken from. -/
inductive Src where
  | lower
  | upper
deriving DecidableEq, Repr

/-- One `pread` issued by `cowolf_read`: source file, starting file
offset, and length. -/
structure ReadSeg where
  src : Src
  start : Nat
  len : Nat
deriving DecidableEq, Repr

/-- The read plan produced by the loop of `cowolf_read` of `cowolf.c`
under the assumption that every `pread` returns the full requested
length: walking the (sorted, window-clipped) entries, each iteration
reads the hole `[start, mpe->offset)` from the lower file and the
mapped range `[mpe->offset, mpe->offset + mpe->len)` from the upper
file; once past the last entry the whole remainder is a hole read from
the lower file. -/
def cowolf_read_plan : List DrmfEntry → Nat → Nat → List ReadSeg
  | [], start, remain =>
    if remain = 0 then [] else [⟨Src.lower, start, remain⟩]
  | e :: es, start, remain =>
    if remain = 0 then []
    else
      let lower_sz := e.offset - start
      let upper_sz := e.len
      (if 0 < lower_sz then [ReadSeg.mk Src.lower start lower_sz] else []) ++
      (if 0 < upper_sz then [ReadSeg.mk Src.upper (start + lower_sz) upper_sz] else []) ++
      cowolf_read_plan es (start + lower_sz + upper_sz) (remain - (lower_sz + upper_sz))

/-- Does the segment `s` read the byte at absolute offset `b`? -/
def segCovers (s : ReadSeg) (b : Nat) : Bool :=
  decide (s.start ≤ b) && decide (b < s.start + s.len)

/-- How many segments of the plan read byte `b` from source `src`. -/
def planCountSrc (src : Src) (plan : List ReadSeg) (b : Nat) : Nat :=
  plan.countP (fun s => decide (s.src = src) && segCovers s b)

/-- Precondition of the `cowolf_read` loop on the entry list relative
to the window `[start, start + remain)`: every entry is non-empty, lies
in the window, and the entries are sorted and disjoint (this is what
`drmf_get_entries` guarantees for the clipped entries). -/
def entriesOK : Nat → Nat → List DrmfEntry → Prop
  | _, _, [] => True
  | start, remain, e :: es =>
    0 < e.len ∧ start ≤ e.offset ∧ e.offset + e.len ≤ start + remain ∧
    entriesOK (e.offset + e.len) (remain - (e.offset + e.len - start)) es

/-- Invariant 1 of spec section 3.1: sorted and disjoint-non-adjacent,
`recs[i].off_end + 1 < recs[i+1].off_start` for consecutive records. -/
def chainOk (recs : List DrmmRec) : Prop :=
  ∀ i < recs.length - 1,
    (recGetD recs i).off_end + 1 < (recGetD recs (i + 1)).off_start

/-- Well-formed record array: every record is a genuine inclusive
interval and the array is sorted disjoint-non-adjacent. -/
def recsWF (recs : List DrmmRec) : Prop :=
  (∀ r ∈ recs, r.off_start ≤ r.off_end) ∧ chainOk recs

/-- The full invariant of spec section 3.1: non-empty, well-formed
`uint64` intervals, sorted disjoint-non-adjacent, and the last record
is the sentinel with `off_end = U64MAX`. -/
def validDRM (recs : List DrmmRec) : Prop :=
  0 < recs.length ∧
  (∀ r ∈ recs, r.off_start ≤ r.off_end ∧ r.off_end ≤ U64MAX) ∧
  chainOk recs ∧
  (recGetD recs (recs.length - 1)).off_end = U64MAX

/-- Start of the sentinel (last) record — the file's logical EOF. -/
def sentinelStart (recs : List DrmmRec) : Nat :=
  (recGetD recs (recs.length - 1)).off_start

/-- The byte at offset `b` lies in some record of the map. -/
def covered (recs : List DrmmRec) (b : Nat) : Prop :=
  ∃ r ∈ recs, r.off_start ≤ b ∧ b ≤ r.off_end

instance (recs : List DrmmRec) (b : Nat) : Decidable (covered recs b) :=
  inferInstanceAs (Decidable (∃ r ∈ recs, _ ∧ _))

instance (recs : List DrmmRec) : Decidable (chainOk recs) :=
  inferInstanceAs (Decidable (∀ i < recs.length - 1,
    (recGetD recs i).off_end + 1 < (recGetD recs (i + 1)).off_start))

instance (recs : List DrmmRec) : Decidable (recsWF recs) :=
  inferInstanceAs (Decidable ((∀ r ∈ recs, r.off_start ≤ r.off_end) ∧ chainOk recs))

instance (recs : List DrmmRec) : Decidable (validDRM recs) :=
  inferInstanceAs (Decidable (0 < recs.length ∧
    (∀ r ∈ recs, r.off_start ≤ r.off_end ∧ r.off_end ≤ U64MAX) ∧
    chainOk recs ∧
    (recGetD recs (recs.length - 1)).off_end = U64MAX))

/-! Basic facts about indexing and about well-formed record arrays. -/

theorem recGetD_eq_getElem (recs : List DrmmRec) (i : Nat) (h : i < recs.length) :
    recGetD recs i = recs[i] := by
  simp [recGetD, List.getD_eq_getElem?_getD, List.getElem?_eq_getElem h]

theorem recGetD_mem (recs : List DrmmRec) (i : Nat) (h : i < recs.length) :
    recGetD recs i ∈ recs := by
  rw [recGetD_eq_getElem recs i h]
  exact List.getElem_mem h

theorem wf_start_le_end (recs : List DrmmRec) (h : recsWF recs) (i : Nat)
    (hi : i < recs.length) :
    (recGetD recs i).off_start ≤ (recGetD recs i).off_end :=
  h.1 _ (recGetD_mem recs i hi)

theorem end_lt_start_of_lt (recs : List DrmmRec) (h : recsWF recs) :
    ∀ i j, i < j → j < recs.length →
      (recGetD recs i).off_end < (recGetD recs j).off_start := by
  intro i j
  induction j with
  | zero => omega
  | succ j ih =>
    intro hij hj
    rcases Nat.lt_or_ge i j with h1 | h2
    · have hj' : j < recs.length := by omega
      have h3 := ih h1 hj'
      have h4 := wf_start_le_end recs h j hj'
      have h5 := h.2 j (by omega)
      omega
    · have hij' : i = j := by omega
      subst hij'
      have h5 := h.2 i (by omega)
      omega

theorem start_lt_start_of_lt (recs : List DrmmRec) (h : recsWF recs) (i j : Nat)
    (hij : i < j) (hj : j < recs.length) :
    (recGetD recs i).off_start < (recGetD recs j).off_start := by
  have h1 := wf_start_le_end recs h i (by omega)
  have h2 := end_lt_start_of_lt recs h i j hij hj
  omega

theorem start_le_start_of_le (recs : List DrmmRec) (h : recsWF recs) (i j : Nat)
    (hij : i ≤ j) (hj : j < recs.length) :
    (recGetD recs i).off_start ≤ (recGetD recs j).off_start := by
  rcases Nat.lt_or_ge i j with h1 | h1
  · exact Nat.le_of_lt (start_lt_start_of_lt recs h i j h1 hj)
  · have : i = j := by omega
    subst this; exact Nat.le_refl _

/-! Correctness of the `bsearch` halving loop. -/

theorem bsearchAux_eq_none (cmp : Nat → Ordering) (n : Nat)
    (h : ∀ i < n, cmp i = Ordering.lt) :
    ∀ fuel l u, u ≤ n → bsearchAux cmp fuel l u = none := by
  intro fuel
  induction fuel with
  | zero => intro l u _; rfl
  | succ fuel ih =>
    intro l u hu
    simp only [bsearchAux]
    by_cases hlu : l < u
    · rw [if_pos hlu, h ((l + u) / 2) (by omega)]
      exact ih l ((l + u) / 2) (by omega)
    · rw [if_neg hlu]

theorem bsearchAux_eq_some (cmp : Nat → Ordering) (n t : Nat) (ht : t < n)
    (hgt : ∀ i < t, cmp i = Ordering.gt) (heq : cmp t = Ordering.eq)
    (hlt : ∀ i, t < i → i < n → cmp i = Ordering.lt) :
    ∀ fuel l u, l ≤ t → t < u → u ≤ n → u - l ≤ fuel →
      bsearchAux cmp fuel l u = some t := by
  intro fuel
  induction fuel with
  | zero => intro l u h1 h2 h3 h4; omega
  | succ fuel ih =>
    intro l u h1 h2 h3 h4
    have hlu : l < u := by omega
    simp only [bsearchAux, if_pos hlu]
    have hidxl : l ≤ (l + u) / 2 := by omega
    have hidxu : (l + u) / 2 < u := by omega
    rcases Nat.lt_trichotomy ((l + u) / 2) t with hc | hc | hc
    · rw [hgt _ hc]
      exact ih ((l + u) / 2 + 1) u (by omega) h2 h3 (by omega)
    · rw [hc, heq]
    · rw [hlt _ hc (by omega)]
      exact ih l ((l + u) / 2) h1 hc (by omega) (by omega)

/-! Correctness of `search_sml_or_eql` on sorted disjoint arrays. -/

theorem comp_eq_gt_of_lt (recs : List DrmmRec) (h : recsWF recs) (k t : Nat)
    (ht : t < recs.length) (h1 : (recGetD recs t).off_start ≤ k) (i : Nat)
    (hi : i < t) : comp_sml_or_eql k recs i = Ordering.gt := by
  have hsi : (recGetD recs i).off_start < k := by
    have := start_lt_start_of_lt recs h i t hi ht
    omega
  have hnext : (recGetD recs (i + 1)).off_start ≤ k := by
    have := start_le_start_of_le recs h (i + 1) t (by omega) ht
    omega
  simp only [comp_sml_or_eql]
  rw [if_neg (by omega), if_neg (by omega), if_neg (by omega), if_neg (by omega)]

theorem comp_eq_eq_self (recs : List DrmmRec) (k t : Nat)
    (ht : t < recs.length) (h1 : (recGetD recs t).off_start ≤ k)
    (h2 : t + 1 < recs.length → k < (recGetD recs (t + 1)).off_start) :
    comp_sml_or_eql k recs t = Ordering.eq := by
  simp only [comp_sml_or_eql]
  by_cases hk : k = (recGetD recs t).off_start
  · rw [if_pos hk]
  · rw [if_neg hk, if_neg (by omega)]
    by_cases hlast : t = recs.length - 1
    · rw [if_pos hlast]
    · rw [if_neg hlast, if_pos (h2 (by omega))]

theorem comp_eq_lt_of_gt (recs : List DrmmRec) (h : recsWF recs) (k t : Nat)
    (h2 : t + 1 < recs.length → k < (recGetD recs (t + 1)).off_start) (i : Nat)
    (hti : t < i) (hi : i < recs.length) :
    comp_sml_or_eql k recs i = Ordering.lt := by
  have hks : k < (recGetD recs i).off_start := by
    have hn : t + 1 < recs.length := by omega
    have h3 := h2 hn
    have h4 := start_le_start_of_le recs h (t + 1) i (by omega) hi
    omega
  simp only [comp_sml_or_eql]
  rw [if_neg (by omega), if_pos hks]

theorem search_eq_of_found (recs : List DrmmRec) (h : recsWF recs) (k t : Nat)
    (ht : t < recs.length) (h1 : (recGetD recs t).off_start ≤ k)
    (h2 : t + 1 < recs.length → k < (recGetD recs (t + 1)).off_start) :
    search_sml_or_eql k recs = (t : Int) := by
  have hsome := bsearchAux_eq_some (comp_sml_or_eql k recs) recs.length t ht
    (fun i hi => comp_eq_gt_of_lt recs h k t ht h1 i hi)
    (comp_eq_eq_self recs k t ht h1 h2)
    (fun i h3 h4 => comp_eq_lt_of_gt recs h k t h2 i h3 h4)
    recs.length 0 recs.length (by omega) ht (Nat.le_refl _) (by omega)
  simp only [search_sml_or_eql, bsearchIdx, hsome]

theorem search_eq_neg_of_all_gt (recs : List DrmmRec) (k : Nat)
    (h : ∀ i < recs.length, k < (recGetD recs i).off_start) :
    search_sml_or_eql k recs = -1 := by
  have hnone := bsearchAux_eq_none (comp_sml_or_eql k recs) recs.length
    (fun i hi => by
      have := h i hi
      simp only [comp_sml_or_eql]
      rw [if_neg (by omega), if_pos this])
    recs.length 0 recs.length (Nat.le_refl _)
  simp only [search_sml_or_eql, bsearchIdx, hnone]

theorem search_found_greatest (recs : List DrmmRec) (h : recsWF recs) (k : Nat)
    (hex : ∃ i, i < recs.length ∧ (recGetD recs i).off_start ≤ k) :
    ∃ t : Nat, search_sml_or_eql k recs = (t : Int) ∧ t < recs.length ∧
      (recGetD recs t).off_start ≤ k ∧
      ∀ j, j < recs.length → (recGetD recs j).off_start ≤ k → j ≤ t := by
  obtain ⟨i0, hi0, hP0⟩ := hex
  set P : Nat → Prop := fun i => (recGetD recs i).off_start ≤ k with hP
  set t := Nat.findGreatest P (recs.length - 1) with htdef
  have hPt : P t := Nat.findGreatest_spec (m := i0) (by omega) hP0
  have htle : t ≤ recs.length - 1 := Nat.findGreatest_le _
  have hmax : ∀ j, j < recs.length → P j → j ≤ t := by
    intro j hj hPj
    exact Nat.le_findGreatest (by omega) hPj
  have ht : t < recs.length := by omega
  refine ⟨t, ?_, ht, hPt, hmax⟩
  apply search_eq_of_found recs h k t ht hPt
  intro hn
  by_contra hcon
  have : P (t + 1) := by simpa [hP] using Nat.le_of_not_lt hcon
  have := hmax (t + 1) hn this
  omega

/-- C5: for every non-empty record array satisfying the sorted,
disjoint-non-adjacent invariant and every key offset,
`search_sml_or_eql` returns the index of the record with the greatest
`off_start` less than or equal to the key, and returns `-1` exactly
when every record's `off_start` is greater than the key. -/
theorem c5_search_greatest_le (recs : List DrmmRec) (k : Nat)
    (hwf : recsWF recs) (hne : 0 < recs.length) :
    ((search_sml_or_eql k recs = -1) ↔
      ∀ i < recs.length, k < (recGetD recs i).off_start) ∧
    (∀ t : Nat, search_sml_or_eql k recs = (t : Int) →
      t < recs.length ∧ (recGetD recs t).off_start ≤ k ∧
      ∀ j < recs.length, (recGetD recs j).off_start ≤ k → j ≤ t) := by
  constructor
  · constructor
    · intro hneg
      by_contra hcon
      push_neg at hcon
      obtain ⟨i, hi, hik⟩ := hcon
      obtain ⟨t0, heq0, _, _, _⟩ :=
        search_found_greatest recs hwf k ⟨i, hi, hik⟩
      rw [hneg] at heq0
      omega
    · intro hall
      exact search_eq_neg_of_all_gt recs k hall
  · intro t hsearch
    by_cases hex : ∃ i, i < recs.length ∧ (recGetD recs i).off_start ≤ k
    · obtain ⟨t0, heq0, ht0, hP0, hmax0⟩ := search_found_greatest recs hwf k hex
      rw [hsearch] at heq0
      have htt : t = t0 := by exact_mod_cast heq0
      subst htt
      exact ⟨ht0, hP0, fun j hj hPj => hmax0 j hj hPj⟩
    · push_neg at hex
      have hall : ∀ i < recs.length, k < (recGetD recs i).off_start := by
        intro i hi
        have := hex i hi
        omega
      have := search_eq_neg_of_all_gt recs k hall
      rw [hsearch] at this
      omega

/-- Witness for C5 at a concrete array and key. -/
theorem c5_search_greatest_le_witness :
    recsWF [⟨2, 5⟩, ⟨10, 20⟩] ∧ 0 < ([⟨2, 5⟩, ⟨10, 20⟩] : List DrmmRec).length ∧
    (((search_sml_or_eql 7 [⟨2, 5⟩, ⟨10, 20⟩] = -1) ↔
      ∀ i < ([⟨2, 5⟩, ⟨10, 20⟩] : List DrmmRec).length,
        7 < (recGetD [⟨2, 5⟩, ⟨10, 20⟩] i).off_start) ∧
    (∀ t : Nat, search_sml_or_eql 7 [⟨2, 5⟩, ⟨10, 20⟩] = (t : Int) →
      t < ([⟨2, 5⟩, ⟨10, 20⟩] : List DrmmRec).length ∧
      (recGetD [⟨2, 5⟩, ⟨10, 20⟩] t).off_start ≤ 7 ∧
      ∀ j < ([⟨2, 5⟩, ⟨10, 20⟩] : List DrmmRec).length,
        (recGetD [⟨2, 5⟩, ⟨10, 20⟩] j).off_start ≤ 7 → j ≤ t)) :=
  ⟨by decide, by decide,
    c5_search_greatest_le [⟨2, 5⟩, ⟨10, 20⟩] 7 (by decide) (by decide)⟩

/-- C2 (failing input): inserting the non-empty range `[500, 599]` into
the valid array `[{200,249},{450,U64MAX}]` (the example of the
`drm_file.c` header comment) does not merge with the sentinel — the
`uint64` test `off_end + 1 < off_start` wraps to `0 < 500` — and the
record is appended after the sentinel, so the result violates the
section 3.1 invariants (its last record's `off_end` is not `U64MAX`). -/
theorem c2_insert_breaks_sentinel :
    validDRM [⟨200, 249⟩, ⟨450, U64MAX⟩] ∧
    drmm_rec_insert ⟨500, 599⟩ [⟨200, 249⟩, ⟨450, U64MAX⟩]
      = [⟨200, 249⟩, ⟨450, U64MAX⟩, ⟨500, 599⟩] ∧
    ¬ validDRM [⟨200, 249⟩, ⟨450, U64MAX⟩, ⟨500, 599⟩] := by decide

/-- C9 (failing input): inserting `[150, 600]` into the valid array
`[{100,199},{500,U64MAX}]` once yields `[{100,U64MAX}]`, but inserting
it a second time appends `{150,600}` after the sentinel (the wrap of
`U64MAX + 1` makes `rec_merge` report the overlapping ranges as not
mergeable), so insertion is not idempotent. -/
theorem c9_insert_not_idempotent :
    validDRM [⟨100, 199⟩, ⟨500, U64MAX⟩] ∧
    drmm_rec_insert ⟨150, 600⟩ [⟨100, 199⟩, ⟨500, U64MAX⟩] = [⟨100, U64MAX⟩] ∧
    drmm_rec_insert ⟨150, 600⟩
        (drmm_rec_insert ⟨150, 600⟩ [⟨100, 199⟩, ⟨500, U64MAX⟩])
      ≠ drmm_rec_insert ⟨150, 600⟩ [⟨100, 199⟩, ⟨500, U64MAX⟩] := by decide

/-- C10 (failing input): `drmf_add_entry` with `len = 0` builds
`new_rec = { offset, offset - 1 mod 2^64 }` and inserts it.  At
`offset = 0` on the valid map `[{1000,U64MAX}]` the inserted record is
`{0, U64MAX}`, so byte 0 becomes covered although nothing was written;
at `offset = 5` the degenerate record `{5, 4}` is inserted. -/
theorem c10_zero_len_add_entry_changes_map :
    validDRM [⟨1000, U64MAX⟩] ∧
    drmf_add_entry_recs 0 0 [⟨1000, U64MAX⟩] = [⟨0, U64MAX⟩, ⟨1000, U64MAX⟩] ∧
    ¬ covered [⟨1000, U64MAX⟩] 0 ∧
    covered (drmf_add_entry_recs 0 0 [⟨1000, U64MAX⟩]) 0 ∧
    drmf_add_entry_recs 5 0 [⟨1000, U64MAX⟩] = [⟨5, 4⟩, ⟨1000, U64MAX⟩] := by decide

/-- C6 (failing input): a zero-length DRM file passes the
`st_size % RECSZ` check of `file_load` (0 is a multiple of 16 but not a
positive one), and the sentinel check then reads `buf[num_rec - 1]`
with `num_rec = 0`, an out-of-bounds access — not the corruption error
the claim requires.  Sizes that are not multiples of 16, and files
whose last record's `off_end` is not `U64MAX`, are rejected as corrupt
as claimed. -/
theorem c6_zero_size_load_oob :
    file_load 0 [] = LoadResult.oob ∧
    file_load 24 [⟨0, U64MAX⟩, ⟨1, 2⟩] = LoadResult.corrupt ∧
    file_load 16 [⟨0, 5⟩] = LoadResult.corrupt ∧
    file_load 16 [⟨0, U64MAX⟩] = LoadResult.ok [⟨0, U64MAX⟩] := by decide

/-- C7 (failing input): when the DRM unlink fails (`drmRes = -1`) but
the link unlink succeeds (`linkRes = 0`), `cowolf_destroy_datamap`
still attempts both unlinks but returns `0`: the source overwrites
`res` with the second unlink's result, so the first failure is not
reported in the return value. -/
theorem c7_destroy_returns_link_result :
    cowolf_destroy_datamap true true (-1) 0 = ⟨true, true, 0⟩ := by decide

/-- C8: on a lower branch (`branch > 0`), `cowolf_open` fails with
errno `EIO` when a DRM file exists at the DRM path (the `stat`
succeeds), and otherwise (`stat` fails with `ENOENT`) succeeds with a
handle whose `cwf_on` is `0`. -/
theorem c8_open_lower_branch (pOk : Bool) (st : StatRes) (h : pOk = true) :
    (st = StatRes.ok → cowolf_open_lower pOk st = OpenResult.err eioCode) ∧
    (st = StatRes.enoent →
      cowolf_open_lower pOk st = OpenResult.ok ⟨0, -1, -1⟩) := by
  subst h
  cases st <;> exact (by decide)

/-- Witness for C8 with the DRM present and with it absent. -/
theorem c8_open_lower_branch_witness :
    (true = true) ∧
    ((StatRes.ok = StatRes.ok →
        cowolf_open_lower true StatRes.ok = OpenResult.err eioCode) ∧
      (StatRes.ok = StatRes.enoent →
        cowolf_open_lower true StatRes.ok = OpenResult.ok ⟨0, -1, -1⟩)) :=
  ⟨rfl, c8_open_lower_branch true StatRes.ok rfl⟩

/-! Characterization of `drmm_rec_find_overlaps` and
`drmf_get_entries_recs` on valid maps. -/

theorem validDRM_wf (recs : List DrmmRec) (h : validDRM recs) : recsWF recs :=
  ⟨fun r hr => (h.2.1 r hr).1, h.2.2.1⟩

theorem exists_thresholds (recs : List DrmmRec) (off re : Nat)
    (hwf : recsWF recs) :
    ∃ a b, a ≤ recs.length ∧ b ≤ recs.length ∧
      (∀ i < recs.length, ((recGetD recs i).off_start ≤ re ↔ i < b)) ∧
      (∀ i < recs.length, (off ≤ (recGetD recs i).off_end ↔ a ≤ i)) := by
  have hQb : ∃ i, recs.length ≤ i ∨ re < (recGetD recs i).off_start :=
    ⟨recs.length, Or.inl (Nat.le_refl _)⟩
  have hQa : ∃ i, recs.length ≤ i ∨ off ≤ (recGetD recs i).off_end :=
    ⟨recs.length, Or.inl (Nat.le_refl _)⟩
  refine ⟨Nat.find hQa, Nat.find hQb, ?_, ?_, ?_, ?_⟩
  · exact Nat.find_min' hQa (Or.inl (Nat.le_refl _))
  · exact Nat.find_min' hQb (Or.inl (Nat.le_refl _))
  · intro i hi
    constructor
    · intro hle
      by_contra hcon
      push_neg at hcon
      have hQ := Nat.find_spec hQb
      rcases hQ with hQ | hQ
      · omega
      · have hmono := start_le_start_of_le recs hwf (Nat.find hQb) i (by omega) hi
        omega
    · intro hlt
      have := Nat.find_min hQb hlt
      push_neg at this
      omega
  · intro i hi
    constructor
    · intro hle
      exact Nat.find_min' hQa (Or.inr hle)
    · intro hai
      have hQ := Nat.find_spec hQa
      rcases hQ with hQ | hQ
      · omega
      · rcases Nat.lt_or_ge (Nat.find hQa) i with hlt | hge
        · have h1 := end_lt_start_of_lt recs hwf (Nat.find hQa) i hlt hi
          have h2 := wf_start_le_end recs hwf i hi
          omega
        · have : Nat.find hQa = i := by omega
          rw [← this]
          exact hQ

theorem olapLoop_spec (off re : Nat) (recs : List DrmmRec) (a b : Nat)
    (hb : ∀ i < recs.length, ((recGetD recs i).off_start ≤ re ↔ i < b))
    (ha : ∀ i < recs.length, (off ≤ (recGetD recs i).off_end ↔ a ≤ i))
    (hbn : b ≤ recs.length) :
    ∀ d j f c, recs.length - j ≤ d →
      olapLoop off re (recs.drop j) j f c =
        (if c = 0 ∧ max j a < b then max j a else f, c + (b - max j a)) := by
  intro d
  induction d with
  | zero =>
    intro j f c hd
    rw [List.drop_eq_nil_of_le (by omega)]
    have h1 : b - max j a = 0 := by omega
    have h2 : ¬(c = 0 ∧ max j a < b) := by omega
    rw [h1, if_neg h2]
    simp [olapLoop]
  | succ d ih =>
    intro j f c hd
    by_cases hj : j < recs.length
    · rw [List.drop_eq_getElem_cons hj]
      have hgd : recGetD recs j = recs[j] := recGetD_eq_getElem recs j hj
      by_cases hjb : j < b
      · have hw : recs[j].off_start ≤ re := by
          rw [← hgd]; exact (hb j hj).mpr hjb
        by_cases hja : j < a
        · have hq : recs[j].off_end < off := by
            rw [← hgd]
            by_contra hcon
            push_neg at hcon
            have := (ha j hj).mp hcon
            omega
          simp only [olapLoop, if_pos hw, if_pos hq]
          rw [ih (j + 1) f c (by omega)]
          have e1 : max j a = max (j + 1) a := by omega
          rw [e1]
        · have hq : ¬(recs[j].off_end < off) := by
            rw [← hgd]
            have := (ha j hj).mpr (by omega)
            omega
          simp only [olapLoop, if_pos hw, if_neg hq]
          rw [ih (j + 1) (if c = 0 then j else f) (c + 1) (by omega)]
          have hc1 : ¬(c + 1 = 0 ∧ max (j + 1) a < b) := by omega
          rw [if_neg hc1]
          have hmaxj : max j a = j := by omega
          have hmax1 : max (j + 1) a = j + 1 := by omega
          rw [hmaxj, hmax1]
          have hsnd : c + 1 + (b - (j + 1)) = c + (b - j) := by omega
          rw [hsnd]
          have hfst : (if c = 0 ∧ j < b then j else f) = (if c = 0 then j else f) := by
            by_cases hc : c = 0 <;> simp [hc, hjb]
          rw [hfst]
      · have hw : ¬(recs[j].off_start ≤ re) := by
          rw [← hgd]
          intro hcon
          have := (hb j hj).mp hcon
          omega
        simp only [olapLoop, if_neg hw]
        have h1 : b - max j a = 0 := by omega
        have h2 : ¬(c = 0 ∧ max j a < b) := by omega
        rw [h1, if_neg h2]
        simp
    · rw [List.drop_eq_nil_of_le (by omega)]
      have h1 : b - max j a = 0 := by omega
      have h2 : ¬(c = 0 ∧ max j a < b) := by omega
      rw [h1, if_neg h2]
      simp [olapLoop]

theorem find_overlaps_eq (off len : Nat) (recs : List DrmmRec) (a b : Nat)
    (hwf : recsWF recs) (hn : 0 < recs.length) (hlen : 0 < len)
    (hb : ∀ i < recs.length, ((recGetD recs i).off_start ≤ off + len - 1 ↔ i < b))
    (ha : ∀ i < recs.length, (off ≤ (recGetD recs i).off_end ↔ a ≤ i))
    (hbn : b ≤ recs.length) :
    drmm_rec_find_overlaps off len recs = (if a < b then a else 0, b - a) := by
  have hcond : ¬(len = 0 ∨ recs.length = 0) := by omega
  have hindx : (search_sml_or_eql off recs).toNat ≤ a := by
    by_cases hex : ∃ i, i < recs.length ∧ (recGetD recs i).off_start ≤ off
    · obtain ⟨t, heq, ht, hPt, hmax⟩ := search_found_greatest recs hwf off hex
      rw [heq]
      have htoNat : ((t : Int)).toNat = t := Int.toNat_natCast t
      rw [htoNat]
      rcases Nat.eq_zero_or_pos t with ht0 | ht0
      · omega
      · by_contra hcon
        push_neg at hcon
        have h1 := end_lt_start_of_lt recs hwf (t - 1) t (by omega) ht
        have h2 := (ha (t - 1) (by omega)).mpr (by omega)
        omega
    · push_neg at hex
      have hall : ∀ i < recs.length, off < (recGetD recs i).off_start := by
        intro i hi
        have := hex i hi
        omega
      rw [search_eq_neg_of_all_gt recs off hall]
      exact Nat.zero_le a
  simp only [drmm_rec_find_overlaps, if_neg hcond]
  rw [olapLoop_spec off (off + len - 1) recs a b hb ha hbn recs.length
    (search_sml_or_eql off recs).toNat 0 0 (by omega)]
  have hmax : max (search_sml_or_eql off recs).toNat a = a := by omega
  rw [hmax]
  by_cases hab : a < b
  · rw [if_pos ⟨rfl, hab⟩, if_pos hab]
    simp
  · rw [if_neg (by omega : ¬(0 = 0 ∧ a < b)), if_neg hab]
    have hba : b - a = 0 := by omega
    simp [hba]

theorem filter_eq_drop_take {α : Type} (p : α → Bool) :
    ∀ (l : List α) (a b : Nat),
      (∀ i (h : i < l.length), (p l[i] = true ↔ a ≤ i ∧ i < b)) →
      l.filter p = (l.take b).drop a := by
  intro l
  induction l with
  | nil =>
    intro a b _
    simp
  | cons x xs ih =>
    intro a b h
    have h0 : p x = true ↔ a ≤ 0 ∧ 0 < b := h 0 (by simp)
    rcases Nat.eq_zero_or_pos b with hb0 | hb0
    · subst hb0
      have hnone : ∀ y ∈ x :: xs, ¬ p y = true := by
        intro y hy hc
        obtain ⟨i, hi, hEq⟩ := List.mem_iff_getElem.mp hy
        rw [← hEq] at hc
        have := (h i hi).mp hc
        omega
      rw [List.filter_eq_nil_iff.mpr hnone]
      simp
    · rcases Nat.eq_zero_or_pos a with ha0 | ha0
      · subst ha0
        obtain ⟨b2, rfl⟩ : ∃ b2, b = b2 + 1 := ⟨b - 1, by omega⟩
        have hpx : p x = true := h0.mpr (by omega)
        rw [List.filter_cons, if_pos hpx, List.take_succ_cons, List.drop_zero]
        have hxs := ih 0 b2 (fun i hi => by
          have h3 := h (i + 1) (by simpa using hi)
          rw [List.getElem_cons_succ] at h3
          constructor
          · intro hc
            have h4 := h3.mp hc
            omega
          · intro hc
            exact h3.mpr (by omega))
        rw [hxs, List.drop_zero]
      · obtain ⟨a2, rfl⟩ : ∃ a2, a = a2 + 1 := ⟨a - 1, by omega⟩
        obtain ⟨b2, rfl⟩ : ∃ b2, b = b2 + 1 := ⟨b - 1, by omega⟩
        have hpx : ¬ p x = true := fun hc => by
          have := h0.mp hc
          omega
        rw [List.filter_cons, if_neg hpx, List.take_succ_cons, List.drop_succ_cons]
        exact ih a2 b2 (fun i hi => by
          have h3 := h (i + 1) (by simpa using hi)
          rw [List.getElem_cons_succ] at h3
          constructor
          · intro hc
            have h4 := h3.mp hc
            omega
          · intro hc
            exact h3.mpr (by omega))

theorem get_entries_shape (off len : Nat) (recs : List DrmmRec) (a b : Nat)
    (hwf : recsWF recs) (hn : 0 < recs.length) (hlen : 0 < len)
    (hb : ∀ i < recs.length, ((recGetD recs i).off_start ≤ off + len - 1 ↔ i < b))
    (ha : ∀ i < recs.length, (off ≤ (recGetD recs i).off_end ↔ a ≤ i))
    (hbn : b ≤ recs.length) :
    (drmf_get_entries_recs off len recs).length = b - a ∧
    ∀ i, i < b - a →
      entGetD (drmf_get_entries_recs off len recs) i
        = clipRec off (off + len - 1) (recGetD recs (a + i)) := by
  have hfo := find_overlaps_eq off len recs a b hwf hn hlen hb ha hbn
  have hfo1 : (drmm_rec_find_overlaps off len recs).1 = if a < b then a else 0 := by
    rw [hfo]
  have hfo2 : (drmm_rec_find_overlaps off len recs).2 = b - a := by
    rw [hfo]
  simp only [drmf_get_entries_recs, if_neg (by omega : ¬ len = 0), hfo1, hfo2]
  by_cases hab : a < b
  · have hifa : (if a < b then a else 0) = a := if_pos hab
    simp only [hifa]
    rw [if_neg (by omega : ¬ (b - a = 0))]
    constructor
    · simp
    · intro i hi
      simp only [entGetD]
      rw [List.getD_eq_getElem _ _ (by simpa using hi)]
      rw [List.getElem_map, List.getElem_range]
  · rw [if_pos (by omega : b - a = 0)]
    constructor
    · simp
      omega
    · intro i hi
      omega

theorem get_entries_full (off len : Nat) (recs : List DrmmRec)
    (hv : validDRM recs) (hlen : 0 < len) :
    ∃ a b, a ≤ recs.length ∧ b ≤ recs.length ∧
      (∀ i < recs.length,
        (overlapsWin off (off + len - 1) (recGetD recs i) ↔ (a ≤ i ∧ i < b))) ∧
      (drmf_get_entries_recs off len recs).length = b - a ∧
      (∀ i, i < b - a →
        entGetD (drmf_get_entries_recs off len recs) i
          = clipRec off (off + len - 1) (recGetD recs (a + i))) := by
  have hwf := validDRM_wf recs hv
  obtain ⟨a, b, han, hbn, hb, ha⟩ := exists_thresholds recs off (off + len - 1) hwf
  obtain ⟨h1, h2⟩ := get_entries_shape off len recs a b hwf hv.1 hlen hb ha hbn
  refine ⟨a, b, han, hbn, ?_, h1, h2⟩
  intro i hi
  unfold overlapsWin
  constructor
  · intro hA
    exact ⟨(ha i hi).mp hA.2, (hb i hi).mp hA.1⟩
  · intro hA
    exact ⟨(hb i hi).mpr hA.2, (ha i hi).mpr hA.1⟩

theorem clip_covers_iff (off re : Nat) (r : DrmmRec) (x : Nat)
    (hwfr : r.off_start ≤ r.off_end) (hov : overlapsWin off re r)
    (hre : off ≤ re) :
    ((clipRec off re r).offset ≤ x ∧ x < (clipRec off re r).offset + (clipRec off re r).len)
      ↔ (r.off_start ≤ x ∧ x ≤ r.off_end ∧ off ≤ x ∧ x ≤ re) := by
  obtain ⟨hov1, hov2⟩ := hov
  simp only [clipRec]
  omega

theorem entGetD_eq_getElem (es : List DrmfEntry) (i : Nat) (h : i < es.length) :
    entGetD es i = es[i] :=
  List.getD_eq_getElem es ⟨0, 0⟩ h

theorem get_entries_union (off len : Nat) (recs : List DrmmRec)
    (hv : validDRM recs) (hlen : 0 < len) :
    ∀ x, (∃ e ∈ drmf_get_entries_recs off len recs,
        e.offset ≤ x ∧ x < e.offset + e.len)
      ↔ (covered recs x ∧ off ≤ x ∧ x < off + len) := by
  obtain ⟨a, b, han, hbn, hov, hL, hel⟩ := get_entries_full off len recs hv hlen
  have hre : off ≤ off + len - 1 := by omega
  intro x
  constructor
  · rintro ⟨e, he, hce⟩
    obtain ⟨i, hi, hEq⟩ := List.mem_iff_getElem.mp he
    have hi2 : i < b - a := by rw [hL] at hi; exact hi
    have hei : e = clipRec off (off + len - 1) (recGetD recs (a + i)) := by
      rw [← hEq, ← entGetD_eq_getElem _ _ hi]
      exact hel i hi2
    have hovi := (hov (a + i) (by omega)).mpr ⟨by omega, by omega⟩
    have hwfi := (hv.2.1 _ (recGetD_mem recs (a + i) (by omega))).1
    have hcov := (clip_covers_iff off (off + len - 1) (recGetD recs (a + i)) x
      hwfi hovi hre).mp (by rw [← hei]; exact hce)
    refine ⟨⟨recGetD recs (a + i), recGetD_mem recs (a + i) (by omega),
      hcov.1, hcov.2.1⟩, by omega, by omega⟩
  · rintro ⟨⟨r, hr, hr1, hr2⟩, hw1, hw2⟩
    obtain ⟨j, hj, hEq⟩ := List.mem_iff_getElem.mp hr
    have hrj : recGetD recs j = r := by rw [recGetD_eq_getElem recs j hj, hEq]
    have hr1j : (recGetD recs j).off_start ≤ x := by rw [hrj]; exact hr1
    have hr2j : x ≤ (recGetD recs j).off_end := by rw [hrj]; exact hr2
    have hovj : overlapsWin off (off + len - 1) (recGetD recs j) :=
      ⟨by omega, by omega⟩
    have hab := (hov j hj).mp hovj
    have hj2 : j - a < b - a := by omega
    have hwfj := (hv.2.1 _ (recGetD_mem recs j hj)).1
    refine ⟨entGetD (drmf_get_entries_recs off len recs) (j - a), ?_, ?_⟩
    · rw [entGetD_eq_getElem _ _ (by omega : j - a < (drmf_get_entries_recs off len recs).length)]
      exact List.getElem_mem _
    · rw [hel (j - a) hj2, show a + (j - a) = j from by omega]
      exact (clip_covers_iff off (off + len - 1) (recGetD recs j) x
        hwfj hovj hre).mpr ⟨hr1j, hr2j, by omega, by omega⟩

theorem get_entries_sorted (off len : Nat) (recs : List DrmmRec)
    (hv : validDRM recs) (hlen : 0 < len) :
    ∀ i, i + 1 < (drmf_get_entries_recs off len recs).length →
      (entGetD (drmf_get_entries_recs off len recs) i).offset
        + (entGetD (drmf_get_entries_recs off len recs) i).len
        ≤ (entGetD (drmf_get_entries_recs off len recs) (i + 1)).offset := by
  obtain ⟨a, b, han, hbn, hov, hL, hel⟩ := get_entries_full off len recs hv hlen
  intro i hi
  rw [hL] at hi
  rw [hel i (by omega), hel (i + 1) (by omega),
    show a + (i + 1) = a + i + 1 from by omega]
  have hchain := hv.2.2.1 (a + i) (by omega)
  have hov1 := (hov (a + i) (by omega)).mpr ⟨by omega, by omega⟩
  have hov2 := (hov (a + i + 1) (by omega)).mpr ⟨by omega, by omega⟩
  obtain ⟨hb1, ha1⟩ := hov1
  obtain ⟨hb2, ha2⟩ := hov2
  have hwf1 := (hv.2.1 _ (recGetD_mem recs (a + i) (by omega))).1
  simp only [clipRec]
  omega

theorem get_entries_within (off len : Nat) (recs : List DrmmRec)
    (hv : validDRM recs) (hlen : 0 < len) :
    ∀ e ∈ drmf_get_entries_recs off len recs,
      off ≤ e.offset ∧ 0 < e.len ∧ e.offset + e.len ≤ off + len := by
  obtain ⟨a, b, han, hbn, hov, hL, hel⟩ := get_entries_full off len recs hv hlen
  intro e he
  obtain ⟨i, hi, hEq⟩ := List.mem_iff_getElem.mp he
  have hi2 : i < b - a := by rw [hL] at hi; exact hi
  have hei : e = clipRec off (off + len - 1) (recGetD recs (a + i)) := by
    rw [← hEq, ← entGetD_eq_getElem _ _ hi]
    exact hel i hi2
  have hovi := (hov (a + i) (by omega)).mpr ⟨by omega, by omega⟩
  obtain ⟨ho1, ho2⟩ := hovi
  have hwfi := (hv.2.1 _ (recGetD_mem recs (a + i) (by omega))).1
  rw [hei]
  simp only [clipRec]
  omega

theorem get_entries_eq_filter (off len : Nat) (recs : List DrmmRec)
    (hv : validDRM recs) (hlen : 0 < len) :
    drmf_get_entries_recs off len recs
      = (recs.filter (fun r => decide (overlapsWin off (off + len - 1) r))).map
          (clipRec off (off + len - 1)) := by
  obtain ⟨a, b, han, hbn, hov, hL, hel⟩ := get_entries_full off len recs hv hlen
  have hfe := filter_eq_drop_take
    (fun r => decide (overlapsWin off (off + len - 1) r)) recs a b
    (fun i hi => by
      simp only [decide_eq_true_eq]
      rw [← recGetD_eq_getElem recs i hi]
      exact hov i hi)
  rw [hfe]
  apply List.ext_getElem
  · rw [hL]
    simp only [List.length_map, List.length_drop, List.length_take]
    omega
  · intro i h1 h2
    have hi2 : i < b - a := by rw [hL] at h1; exact h1
    rw [← entGetD_eq_getElem _ _ h1, hel i hi2]
    rw [List.getElem_map, List.getElem_drop, List.getElem_take]
    rw [← recGetD_eq_getElem recs (a + i) (by omega)]

/-- C4: for every valid DRM record array and every query window,
`drmf_get_entries` returns the clipped entries
`{offset: max(off_start, off), len: min(off_end, off+len-1) - offset + 1}`
for exactly the records overlapping the window; the entries are sorted,
pairwise disjoint, lie within the window, and their union equals the
intersection of the stored covered set with the window; for `len = 0`
the result is empty. -/
theorem c4_get_entries_clip (recs : List DrmmRec) (off len : Nat)
    (hv : validDRM recs) :
    (len = 0 → drmf_get_entries_recs off len recs = []) ∧
    (0 < len →
      drmf_get_entries_recs off len recs
        = (recs.filter (fun r => decide (overlapsWin off (off + len - 1) r))).map
            (clipRec off (off + len - 1)) ∧
      (∀ i, i + 1 < (drmf_get_entries_recs off len recs).length →
        (entGetD (drmf_get_entries_recs off len recs) i).offset
          + (entGetD (drmf_get_entries_recs off len recs) i).len
          ≤ (entGetD (drmf_get_entries_recs off len recs) (i + 1)).offset) ∧
      (∀ e ∈ drmf_get_entries_recs off len recs,
        off ≤ e.offset ∧ 0 < e.len ∧ e.offset + e.len ≤ off + len) ∧
      (∀ x, (∃ e ∈ drmf_get_entries_recs off len recs,
          e.offset ≤ x ∧ x < e.offset + e.len)
        ↔ (covered recs x ∧ off ≤ x ∧ x < off + len))) := by
  constructor
  · intro h0
    simp [drmf_get_entries_recs, h0]
  · intro hlen
    exact ⟨get_entries_eq_filter off len recs hv hlen,
      get_entries_sorted off len recs hv hlen,
      get_entries_within off len recs hv hlen,
      get_entries_union off len recs hv hlen⟩

/-- Witness for C4 at a concrete valid map and window. -/
theorem c4_get_entries_clip_witness :
    validDRM [⟨2, 5⟩, ⟨10, U64MAX⟩] ∧
    ((4 = 0 → drmf_get_entries_recs 3 4 [⟨2, 5⟩, ⟨10, U64MAX⟩] = []) ∧
    (0 < 4 →
      drmf_get_entries_recs 3 4 [⟨2, 5⟩, ⟨10, U64MAX⟩]
        = (([⟨2, 5⟩, ⟨10, U64MAX⟩] : List DrmmRec).filter
            (fun r => decide (overlapsWin 3 (3 + 4 - 1) r))).map
              (clipRec 3 (3 + 4 - 1)) ∧
      (∀ i, i + 1 < (drmf_get_entries_recs 3 4 [⟨2, 5⟩, ⟨10, U64MAX⟩]).length →
        (entGetD (drmf_get_entries_recs 3 4 [⟨2, 5⟩, ⟨10, U64MAX⟩]) i).offset
          + (entGetD (drmf_get_entries_recs 3 4 [⟨2, 5⟩, ⟨10, U64MAX⟩]) i).len
          ≤ (entGetD (drmf_get_entries_recs 3 4 [⟨2, 5⟩, ⟨10, U64MAX⟩]) (i + 1)).offset) ∧
      (∀ e ∈ drmf_get_entries_recs 3 4 [⟨2, 5⟩, ⟨10, U64MAX⟩],
        3 ≤ e.offset ∧ 0 < e.len ∧ e.offset + e.len ≤ 3 + 4) ∧
      (∀ x, (∃ e ∈ drmf_get_entries_recs 3 4 [⟨2, 5⟩, ⟨10, U64MAX⟩],
          e.offset ≤ x ∧ x < e.offset + e.len)
        ↔ (covered [⟨2, 5⟩, ⟨10, U64MAX⟩] x ∧ 3 ≤ x ∧ x < 3 + 4)))) :=
  ⟨by decide, c4_get_entries_clip [⟨2, 5⟩, ⟨10, U64MAX⟩] 3 4 (by decide)⟩

/-! The scatter-gather read plan of `cowolf_read`. -/

theorem planCountSrc_nil (src : Src) (x : Nat) : planCountSrc src [] x = 0 := rfl

theorem planCountSrc_cons (src : Src) (s : ReadSeg) (plan : List ReadSeg) (x : Nat) :
    planCountSrc src (s :: plan) x
      = planCountSrc src plan x
        + (if s.src = src ∧ (s.start ≤ x ∧ x < s.start + s.len) then 1 else 0) := by
  simp [planCountSrc, List.countP_cons, segCovers, Bool.and_eq_true, decide_eq_true_eq]

theorem planCountSrc_append (src : Src) (p q : List ReadSeg) (x : Nat) :
    planCountSrc src (p ++ q) x = planCountSrc src p x + planCountSrc src q x := by
  simp [planCountSrc, List.countP_append]

theorem entriesOK_bounds :
    ∀ (es : List DrmfEntry) (start remain : Nat), entriesOK start remain es →
      ∀ e ∈ es, start ≤ e.offset ∧ 0 < e.len ∧ e.offset + e.len ≤ start + remain := by
  intro es
  induction es with
  | nil =>
    intro start remain _ e he
    simp at he
  | cons e es ih =>
    intro start remain hok e2 he2
    obtain ⟨h1, h2, h3, hok2⟩ := hok
    rcases List.mem_cons.mp he2 with he2 | he2
    · subst he2
      exact ⟨h2, h1, h3⟩
    · have := ih (e.offset + e.len) (remain - (e.offset + e.len - start)) hok2 e2 he2
      refine ⟨by omega, this.2.1, by omega⟩

theorem entriesOK_of_facts :
    ∀ (es : List DrmfEntry) (start remain : Nat),
      (∀ i, i + 1 < es.length →
        (entGetD es i).offset + (entGetD es i).len ≤ (entGetD es (i + 1)).offset) →
      (∀ e ∈ es, 0 < e.len ∧ e.offset + e.len ≤ start + remain) →
      (es = [] ∨ start ≤ (entGetD es 0).offset) →
      entriesOK start remain es := by
  intro es
  induction es with
  | nil =>
    intro start remain _ _ _
    exact trivial
  | cons e es ih =>
    intro start remain hsort hall hhead
    have hh := hall e (List.mem_cons_self e es)
    have hs0 : start ≤ e.offset := by
      rcases hhead with h | h
      · exact absurd h (by simp)
      · exact h
    refine ⟨hh.1, hs0, hh.2, ih (e.offset + e.len) (remain - (e.offset + e.len - start))
      ?_ ?_ ?_⟩
    · intro i hi
      have h2 := hsort (i + 1) (by simpa using hi)
      simpa [entGetD, List.getD_cons_succ] using h2
    · intro e2 he2
      have h3 := hall e2 (List.mem_cons_of_mem _ he2)
      exact ⟨h3.1, by omega⟩
    · cases es with
      | nil => exact Or.inl rfl
      | cons e2 es2 =>
        refine Or.inr ?_
        have h4 := hsort 0 (by simp)
        simpa [entGetD] using h4

theorem plan_counts :
    ∀ (es : List DrmfEntry) (start remain : Nat), entriesOK start remain es →
      ∀ x,
        planCountSrc Src.upper (cowolf_read_plan es start remain) x
          = (if ∃ e ∈ es, e.offset ≤ x ∧ x < e.offset + e.len then 1 else 0) ∧
        planCountSrc Src.lower (cowolf_read_plan es start remain) x
          = (if start ≤ x ∧ x < start + remain ∧
                ¬ ∃ e ∈ es, e.offset ≤ x ∧ x < e.offset + e.len then 1 else 0) := by
  intro es
  induction es with
  | nil =>
    intro start remain _ x
    have hne : ¬ ∃ e ∈ ([] : List DrmfEntry), e.offset ≤ x ∧ x < e.offset + e.len := by
      simp
    constructor
    · rw [if_neg hne]
      by_cases h0 : remain = 0
      · simp [cowolf_read_plan, h0, planCountSrc_nil]
      · simp only [cowolf_read_plan, if_neg h0]
        rw [planCountSrc_cons, planCountSrc_nil]
        simp
    · by_cases h0 : remain = 0
      · rw [if_neg (by rintro ⟨_, h2', _⟩; omega)]
        simp [cowolf_read_plan, h0, planCountSrc_nil]
      · simp only [cowolf_read_plan, if_neg h0]
        rw [planCountSrc_cons, planCountSrc_nil]
        have hiff : (Src.lower = Src.lower ∧ (start ≤ x ∧ x < start + remain))
            ↔ (start ≤ x ∧ x < start + remain ∧
                ¬ ∃ e ∈ ([] : List DrmfEntry), e.offset ≤ x ∧ x < e.offset + e.len) := by
          constructor
          · rintro ⟨_, hh⟩
            exact ⟨hh.1, hh.2, hne⟩
          · rintro ⟨hh1, hh2, _⟩
            exact ⟨rfl, hh1, hh2⟩
        rw [if_congr hiff rfl rfl]
        simp
  | cons e es ih =>
    intro start remain hok x
    obtain ⟨h1, h2, h3, hok2⟩ := hok
    have hrem : ¬ remain = 0 := by omega
    have htail := entriesOK_bounds es (e.offset + e.len)
      (remain - (e.offset + e.len - start)) hok2
    have IH := ih (e.offset + e.len) (remain - (e.offset + e.len - start)) hok2 x
    simp only [cowolf_read_plan, if_neg hrem]
    have hAup : planCountSrc Src.upper
        (if 0 < e.offset - start then [ReadSeg.mk Src.lower start (e.offset - start)] else []) x
        = 0 := by
      by_cases h : 0 < e.offset - start
      · rw [if_pos h, planCountSrc_cons, planCountSrc_nil]
        simp
      · rw [if_neg h]
        rfl
    have hAlow : planCountSrc Src.lower
        (if 0 < e.offset - start then [ReadSeg.mk Src.lower start (e.offset - start)] else []) x
        = if start ≤ x ∧ x < e.offset then 1 else 0 := by
      by_cases h : 0 < e.offset - start
      · rw [if_pos h, planCountSrc_cons, planCountSrc_nil]
        have hiff : (Src.lower = Src.lower ∧ (start ≤ x ∧ x < start + (e.offset - start)))
            ↔ (start ≤ x ∧ x < e.offset) := by
          constructor
          · rintro ⟨_, hh⟩
            omega
          · intro hh
            exact ⟨rfl, by omega⟩
        rw [if_congr hiff rfl rfl]
        simp
      · rw [if_neg h, planCountSrc_nil, if_neg (by omega)]
    have hBup : planCountSrc Src.upper
        (if 0 < e.len then [ReadSeg.mk Src.upper (start + (e.offset - start)) e.len] else []) x
        = if e.offset ≤ x ∧ x < e.offset + e.len then 1 else 0 := by
      rw [if_pos h1, planCountSrc_cons, planCountSrc_nil]
      have hiff : (Src.upper = Src.upper ∧
          (start + (e.offset - start) ≤ x ∧ x < start + (e.offset - start) + e.len))
          ↔ (e.offset ≤ x ∧ x < e.offset + e.len) := by
        constructor
        · rintro ⟨_, hh⟩
          omega
        · intro hh
          exact ⟨rfl, by omega⟩
      rw [if_congr hiff rfl rfl]
      simp
    have hBlow : planCountSrc Src.lower
        (if 0 < e.len then [ReadSeg.mk Src.upper (start + (e.offset - start)) e.len] else []) x
        = 0 := by
      rw [if_pos h1, planCountSrc_cons, planCountSrc_nil]
      simp
    have harg1 : start + (e.offset - start) + e.len = e.offset + e.len := by omega
    have harg2 : remain - (e.offset - start + e.len)
        = remain - (e.offset + e.len - start) := by omega
    constructor
    · rw [planCountSrc_append, planCountSrc_append, hAup, hBup, harg1, harg2, IH.1]
      by_cases hec : e.offset ≤ x ∧ x < e.offset + e.len
      · have hnt : ¬ ∃ e2 ∈ es, e2.offset ≤ x ∧ x < e2.offset + e2.len := by
          rintro ⟨e2, he2, hc2⟩
          have := (htail e2 he2).1
          omega
        rw [if_pos hec, if_neg hnt,
          if_pos (show ∃ e2 ∈ e :: es, e2.offset ≤ x ∧ x < e2.offset + e2.len from
            ⟨e, List.mem_cons_self e es, hec⟩)]
      · rw [if_neg hec]
        have hiff : (∃ e2 ∈ e :: es, e2.offset ≤ x ∧ x < e2.offset + e2.len)
            ↔ (∃ e2 ∈ es, e2.offset ≤ x ∧ x < e2.offset + e2.len) := by
          constructor
          · rintro ⟨e2, he2, hc2⟩
            rcases List.mem_cons.mp he2 with he2' | he2'
            · subst he2'
              exact absurd hc2 hec
            · exact ⟨e2, he2', hc2⟩
          · rintro ⟨e2, he2, hc2⟩
            exact ⟨e2, List.mem_cons_of_mem _ he2, hc2⟩
        rw [if_congr hiff rfl rfl]
        simp
    · rw [planCountSrc_append, planCountSrc_append, hAlow, hBlow, harg1, harg2, IH.2]
      have hse : e.offset + e.len + (remain - (e.offset + e.len - start))
          = start + remain := by omega
      by_cases hec : e.offset ≤ x ∧ x < e.offset + e.len
      · have hc1 : ¬(start ≤ x ∧ x < e.offset) := by omega
        have hc2 : ¬(e.offset + e.len ≤ x ∧
            x < e.offset + e.len + (remain - (e.offset + e.len - start)) ∧
            ¬ ∃ e2 ∈ es, e2.offset ≤ x ∧ x < e2.offset + e2.len) := by
          rintro ⟨hh, _, _⟩
          omega
        have hc3 : ¬(start ≤ x ∧ x < start + remain ∧
            ¬ ∃ e2 ∈ e :: es, e2.offset ≤ x ∧ x < e2.offset + e2.len) := by
          rintro ⟨_, _, hne⟩
          exact hne ⟨e, List.mem_cons_self e es, hec⟩
        rw [if_neg hc1, if_neg hc2, if_neg hc3]
      · by_cases htl : ∃ e2 ∈ es, e2.offset ≤ x ∧ x < e2.offset + e2.len
        · obtain ⟨e2, he2, hc2⟩ := htl
          have hb2 := htail e2 he2
          have hc1 : ¬(start ≤ x ∧ x < e.offset) := by omega
          have hcmid : ¬(e.offset + e.len ≤ x ∧
              x < e.offset + e.len + (remain - (e.offset + e.len - start)) ∧
              ¬ ∃ e3 ∈ es, e3.offset ≤ x ∧ x < e3.offset + e3.len) := by
            rintro ⟨_, _, hne⟩
            exact hne ⟨e2, he2, hc2⟩
          have hc3 : ¬(start ≤ x ∧ x < start + remain ∧
              ¬ ∃ e3 ∈ e :: es, e3.offset ≤ x ∧ x < e3.offset + e3.len) := by
            rintro ⟨_, _, hne⟩
            exact hne ⟨e2, List.mem_cons_of_mem _ he2, hc2⟩
          rw [if_neg hc1, if_neg hcmid, if_neg hc3]
        · have hnc : ¬ ∃ e2 ∈ e :: es, e2.offset ≤ x ∧ x < e2.offset + e2.len := by
            rintro ⟨e2, he2, hc2⟩
            rcases List.mem_cons.mp he2 with he2' | he2'
            · subst he2'
              exact hec hc2
            · exact htl ⟨e2, he2', hc2⟩
          by_cases hx1 : start ≤ x ∧ x < e.offset
          · rw [if_pos hx1, if_neg (by rintro ⟨hh, _, _⟩; omega),
              if_pos (show start ≤ x ∧ x < start + remain ∧
                ¬ ∃ e2 ∈ e :: es, e2.offset ≤ x ∧ x < e2.offset + e2.len from
                ⟨by omega, by omega, hnc⟩)]
          · by_cases hx2 : e.offset + e.len ≤ x ∧ x < start + remain
            · rw [if_neg hx1,
                if_pos (show e.offset + e.len ≤ x ∧
                  x < e.offset + e.len + (remain - (e.offset + e.len - start)) ∧
                  ¬ ∃ e2 ∈ es, e2.offset ≤ x ∧ x < e2.offset + e2.len from
                  ⟨by omega, by omega, htl⟩),
                if_pos (show start ≤ x ∧ x < start + remain ∧
                  ¬ ∃ e2 ∈ e :: es, e2.offset ≤ x ∧ x < e2.offset + e2.len from
                  ⟨by omega, by omega, hnc⟩)]
            · have hc3 : ¬(start ≤ x ∧ x < start + remain ∧
                  ¬ ∃ e2 ∈ e :: es, e2.offset ≤ x ∧ x < e2.offset + e2.len) := by
                rintro ⟨ha', hb', _⟩
                omega
              rw [if_neg hx1,
                if_neg (show ¬(e.offset + e.len ≤ x ∧
                  x < e.offset + e.len + (remain - (e.offset + e.len - start)) ∧
                  ¬ ∃ e2 ∈ es, e2.offset ≤ x ∧ x < e2.offset + e2.len) from
                  fun hh => hx2 ⟨hh.1, by omega⟩),
                if_neg hc3]

/-- C1: for a handle with `cwf_on = 1` whose DRM satisfies the section
3.1 invariants, the scatter-gather plan of `cowolf_read` (all `pread`s
assumed full-length) services every byte of the request window from
exactly one of the two files: a byte inside a mapped DRM range
(including the sentinel range) is read from the upper file exactly
once and never from the lower file, and a byte outside every mapped
range is read from the lower file exactly once and never from the
upper file. -/
theorem c1_read_routes_each_byte_once (recs : List DrmmRec) (offset size : Nat)
    (hv : validDRM recs) :
    ∀ x, offset ≤ x → x < offset + size →
      (covered recs x →
        planCountSrc Src.upper
          (cowolf_read_plan (drmf_get_entries_recs offset size recs) offset size) x = 1 ∧
        planCountSrc Src.lower
          (cowolf_read_plan (drmf_get_entries_recs offset size recs) offset size) x = 0) ∧
      (¬ covered recs x →
        planCountSrc Src.lower
          (cowolf_read_plan (drmf_get_entries_recs offset size recs) offset size) x = 1 ∧
        planCountSrc Src.upper
          (cowolf_read_plan (drmf_get_entries_recs offset size recs) offset size) x = 0) := by
  intro x hx1 hx2
  have hsize : 0 < size := by omega
  have hsorted := get_entries_sorted offset size recs hv hsize
  have hwithin := get_entries_within offset size recs hv hsize
  have hok : entriesOK offset size (drmf_get_entries_recs offset size recs) := by
    apply entriesOK_of_facts _ offset size hsorted
    · intro e he
      have h5 := hwithin e he
      exact ⟨h5.2.1, h5.2.2⟩
    · cases h : drmf_get_entries_recs offset size recs with
      | nil => exact Or.inl rfl
      | cons e0 es0 =>
        refine Or.inr ?_
        have hmem : e0 ∈ drmf_get_entries_recs offset size recs := by
          rw [h]
          exact List.mem_cons_self _ _
        have h6 := (hwithin e0 hmem).1
        simpa [entGetD] using h6
  have hpc := plan_counts (drmf_get_entries_recs offset size recs) offset size hok x
  have hbr := get_entries_union offset size recs hv hsize x
  constructor
  · intro hcov
    have hex := hbr.mpr ⟨hcov, hx1, hx2⟩
    constructor
    · rw [hpc.1, if_pos hex]
    · rw [hpc.2, if_neg (by rintro ⟨_, _, hne⟩; exact hne hex)]
  · intro hncov
    have hnex : ¬ ∃ e ∈ drmf_get_entries_recs offset size recs,
        e.offset ≤ x ∧ x < e.offset + e.len := fun hex => hncov (hbr.mp hex).1
    constructor
    · rw [hpc.2, if_pos ⟨hx1, hx2, hnex⟩]
    · rw [hpc.1, if_neg hnex]

/-- Witness for C1 at a concrete valid map, window and byte. -/
theorem c1_read_routes_each_byte_once_witness :
    validDRM [⟨2, 5⟩, ⟨10, U64MAX⟩] ∧ (3 : Nat) ≤ 4 ∧ (4 : Nat) < 3 + 4 ∧
    ((covered [⟨2, 5⟩, ⟨10, U64MAX⟩] 4 →
        planCountSrc Src.upper
          (cowolf_read_plan (drmf_get_entries_recs 3 4 [⟨2, 5⟩, ⟨10, U64MAX⟩]) 3 4) 4 = 1 ∧
        planCountSrc Src.lower
          (cowolf_read_plan (drmf_get_entries_recs 3 4 [⟨2, 5⟩, ⟨10, U64MAX⟩]) 3 4) 4 = 0) ∧
      (¬ covered [⟨2, 5⟩, ⟨10, U64MAX⟩] 4 →
        planCountSrc Src.lower
          (cowolf_read_plan (drmf_get_entries_recs 3 4 [⟨2, 5⟩, ⟨10, U64MAX⟩]) 3 4) 4 = 1 ∧
        planCountSrc Src.upper
          (cowolf_read_plan (drmf_get_entries_recs 3 4 [⟨2, 5⟩, ⟨10, U64MAX⟩]) 3 4) 4 = 0)) :=
  ⟨by decide, by decide, by decide,
    c1_read_routes_each_byte_once [⟨2, 5⟩, ⟨10, U64MAX⟩] 3 4 (by decide) 4
      (by decide) (by decide)⟩

/-! Helpers for the truncate and insert analyses. -/

theorem U64MAX_lt_U64 : U64MAX < U64 := by decide

theorem covered_iff_idx (L : List DrmmRec) (x : Nat) :
    covered L x ↔ ∃ j, j < L.length ∧
      (recGetD L j).off_start ≤ x ∧ x ≤ (recGetD L j).off_end := by
  unfold covered
  constructor
  · rintro ⟨r, hr, h1, h2⟩
    obtain ⟨i, hi, hEq⟩ := List.mem_iff_getElem.mp hr
    refine ⟨i, hi, ?_, ?_⟩ <;> rw [recGetD_eq_getElem L i hi, hEq]
    · exact h1
    · exact h2
  · rintro ⟨j, hj, h1, h2⟩
    exact ⟨recGetD L j, recGetD_mem L j hj, h1, h2⟩

theorem covered_append (A B : List DrmmRec) (x : Nat) :
    covered (A ++ B) x ↔ covered A x ∨ covered B x := by
  unfold covered
  constructor
  · rintro ⟨r, hr, h1, h2⟩
    rcases List.mem_append.mp hr with h | h
    · exact Or.inl ⟨r, h, h1, h2⟩
    · exact Or.inr ⟨r, h, h1, h2⟩
  · rintro (⟨r, hr, h1, h2⟩ | ⟨r, hr, h1, h2⟩)
    · exact ⟨r, List.mem_append_left _ hr, h1, h2⟩
    · exact ⟨r, List.mem_append_right _ hr, h1, h2⟩

theorem covered_singleton (r : DrmmRec) (x : Nat) :
    covered [r] x ↔ (r.off_start ≤ x ∧ x ≤ r.off_end) := by
  unfold covered
  simp

theorem recGetD_take (recs : List DrmmRec) (m i : Nat) (h : i < m)
    (h2 : i < recs.length) : recGetD (recs.take m) i = recGetD recs i := by
  rw [recGetD_eq_getElem _ i (by simp [List.length_take]; omega),
    List.getElem_take, recGetD_eq_getElem recs i h2]

theorem recsWF_take (recs : List DrmmRec) (m : Nat) (h : recsWF recs) :
    recsWF (recs.take m) := by
  constructor
  · intro r hr
    exact h.1 r (List.take_subset m recs hr)
  · intro i hi
    have hlen : (recs.take m).length = min m recs.length := by
      simp [List.length_take]
    rw [recGetD_take recs m i (by omega) (by omega),
      recGetD_take recs m (i + 1) (by omega) (by omega)]
    exact h.2 i (by omega)

theorem recGetD_append_lt (P : List DrmmRec) (c : DrmmRec) (i : Nat)
    (h : i < P.length) : recGetD (P ++ [c]) i = recGetD P i := by
  rw [recGetD_eq_getElem _ i (by simp [List.length_append]; omega),
    List.getElem_append_left h, recGetD_eq_getElem P i h]

theorem recGetD_append_last (P : List DrmmRec) (c : DrmmRec) :
    recGetD (P ++ [c]) P.length = c := by
  rw [recGetD_eq_getElem _ P.length (by simp [List.length_append])]
  exact List.getElem_concat_length P c P.length rfl _

theorem covered_take_iff (body : List DrmmRec) (t : Nat) (ht : t ≤ body.length)
    (x : Nat) :
    covered (body.take t) x ↔ ∃ j, j < t ∧
      (recGetD body j).off_start ≤ x ∧ x ≤ (recGetD body j).off_end := by
  rw [covered_iff_idx]
  have hlen : (body.take t).length = t := by
    simp [List.length_take]
    omega
  constructor
  · rintro ⟨j, hj, h1, h2⟩
    rw [hlen] at hj
    rw [recGetD_take body t j hj (by omega)] at h1 h2
    exact ⟨j, hj, h1, h2⟩
  · rintro ⟨j, hj, h1, h2⟩
    refine ⟨j, by omega, ?_, ?_⟩ <;>
      rw [recGetD_take body t j hj (by omega)]
    · exact h1
    · exact h2

theorem take_set_of_le (l : List DrmmRec) (i m : Nat) (v : DrmmRec)
    (h : m ≤ i) : (l.set i v).take m = l.take m := by
  apply List.ext_getElem
  · simp [List.length_take, List.length_set]
  · intro j h1 h2
    rw [List.getElem_take, List.getElem_take, List.getElem_set,
      if_neg (by simp [List.length_take] at h1; omega)]

theorem rec_merge_no_wrap (left right : DrmmRec) (h : left.off_end < U64MAX) :
    rec_merge left right
      = if left.off_end + 1 < right.off_start then (false, left)
        else (true, ⟨left.off_start, max right.off_end left.off_end⟩) := by
  unfold rec_merge
  rw [Nat.mod_eq_of_lt (by have := U64MAX_lt_U64; omega)]

theorem insert_nil (ne : DrmmRec) : drmm_rec_insert ne [] = [ne] := rfl

theorem truncate_spec (body : List DrmmRec) (N : Nat) (hwf : recsWF body) :
    recsWF (drmm_rec_truncate N body) ∧
    (∀ r ∈ drmm_rec_truncate N body, r.off_end < N) ∧
    (∀ x, covered (drmm_rec_truncate N body) x ↔ (covered body x ∧ x < N)) := by
  by_cases h0 : N = 0 ∨ body.length = 0
  · simp only [drmm_rec_truncate, if_pos h0]
    refine ⟨⟨by intro r hr; simp at hr, by intro i hi; simp at hi⟩,
      by intro r hr; simp at hr, ?_⟩
    intro x
    rw [covered_iff_idx]
    constructor
    · rintro ⟨j, hj, _⟩
      simp at hj
    · rintro ⟨hc, hx⟩
      rcases h0 with h0 | h0
      · omega
      · rw [covered_iff_idx] at hc
        obtain ⟨j, hj, _⟩ := hc
        omega
  · have hN : 0 < N := by omega
    have hn : 0 < body.length := by omega
    simp only [drmm_rec_truncate, if_neg h0]
    by_cases hex : ∃ i, i < body.length ∧ (recGetD body i).off_start ≤ N - 1
    · obtain ⟨t, heq, ht, hPt, hmax⟩ := search_found_greatest body hwf (N - 1) hex
      rw [heq, if_neg (by exact not_lt.mpr (Int.natCast_nonneg t)), Int.toNat_natCast]
      have hwft := wf_start_le_end body hwf t ht
      refine ⟨⟨?_, ?_⟩, ?_, ?_⟩
      · intro r hr
        rcases List.mem_append.mp hr with h | h
        · exact hwf.1 r (List.take_subset t body h)
        · rw [List.mem_singleton] at h
          subst h
          dsimp only
          omega
      · intro i hi
        have hi2 : i < t := by
          simp [List.length_append, List.length_take] at hi
          omega
        rcases Nat.lt_or_ge (i + 1) t with h2 | h2
        · rw [recGetD_append_lt _ _ i (by simp [List.length_take]; omega),
            recGetD_append_lt _ _ (i + 1) (by simp [List.length_take]; omega),
            recGetD_take body t i (by omega) (by omega),
            recGetD_take body t (i + 1) (by omega) (by omega)]
          exact hwf.2 i (by omega)
        · have hit : i + 1 = t := by omega
          rw [recGetD_append_lt _ _ i (by simp [List.length_take]; omega),
            recGetD_take body t i (by omega) (by omega),
            show i + 1 = (body.take t).length from by simp [List.length_take]; omega,
            recGetD_append_last]
          dsimp only
          have h3 := hwf.2 i (by omega)
          rw [hit] at h3
          exact h3
      · intro r hr
        rcases List.mem_append.mp hr with h | h
        · obtain ⟨j, hj, hEq⟩ := List.mem_iff_getElem.mp h
          have hjlen : j < t := by
            simp [List.length_take] at hj
            omega
          rw [List.getElem_take] at hEq
          have h5 := end_lt_start_of_lt body hwf j t hjlen ht
          rw [recGetD_eq_getElem body j (by omega), hEq] at h5
          omega
        · rw [List.mem_singleton] at h
          subst h
          dsimp only
          omega
      · intro x
        rw [covered_append, covered_singleton, covered_take_iff body t (by omega)]
        dsimp only
        constructor
        · rintro (⟨j, hj, h1, h2⟩ | ⟨h1, h2⟩)
          · have h5 := end_lt_start_of_lt body hwf j t hj ht
            refine ⟨?_, by omega⟩
            rw [covered_iff_idx]
            exact ⟨j, by omega, h1, h2⟩
          · refine ⟨?_, by omega⟩
            rw [covered_iff_idx]
            exact ⟨t, ht, h1, by omega⟩
        · rintro ⟨hc, hx⟩
          rw [covered_iff_idx] at hc
          obtain ⟨j, hj, h1, h2⟩ := hc
          have hjt : j ≤ t := hmax j hj (by omega)
          rcases Nat.lt_or_ge j t with hlt2 | hge
          · exact Or.inl ⟨j, hlt2, h1, h2⟩
          · have hjt2 : j = t := by omega
            subst hjt2
            exact Or.inr ⟨h1, by omega⟩
    · push_neg at hex
      have hneg := search_eq_neg_of_all_gt body (N - 1)
        (fun i hi => by have := hex i hi; omega)
      rw [hneg, if_pos (by norm_num)]
      refine ⟨⟨by intro r hr; simp at hr, by intro i hi; simp at hi⟩,
        by intro r hr; simp at hr, ?_⟩
      intro x
      rw [covered_iff_idx]
      constructor
      · rintro ⟨j, hj, _⟩
        simp at hj
      · rintro ⟨hc, hx⟩
        rw [covered_iff_idx] at hc
        obtain ⟨j, hj, h1, h2⟩ := hc
        have := hex j hj
        omega


theorem insert_above_eq (A : List DrmmRec) (s e : Nat) (hwf : recsWF A)
    (hse : s ≤ e) (heU : e ≤ U64MAX) (hlt : ∀ r ∈ A, r.off_end < s)
    (hA : A ≠ []) :
    drmm_rec_insert ⟨s, e⟩ A
      = if (recGetD A (A.length - 1)).off_end + 1 < s
        then A ++ [⟨s, e⟩]
        else A.take (A.length - 1)
          ++ [⟨(recGetD A (A.length - 1)).off_start, e⟩] := by
  have hn : 0 < A.length := List.length_pos.mpr hA
  have hlast_mem := recGetD_mem A (A.length - 1) (by omega)
  have hlast_end := hlt _ hlast_mem
  have hlast_wf := wf_start_le_end A hwf (A.length - 1) (by omega)
  have hsearch : search_sml_or_eql s A = ((A.length - 1 : Nat) : Int) :=
    search_eq_of_found A hwf s (A.length - 1) (by omega) (by omega)
      (fun h => absurd h (by omega))
  have hmerge := rec_merge_no_wrap (recGetD A (A.length - 1)) ⟨s, e⟩
    (by omega : (recGetD A (A.length - 1)).off_end < U64MAX)
  by_cases hm : (recGetD A (A.length - 1)).off_end + 1 < s
  · have hmeq : rec_merge (recGetD A (A.length - 1)) ⟨s, e⟩
        = (false, recGetD A (A.length - 1)) := by
      rw [hmerge]
      dsimp only
      rw [if_pos hm]
    rw [if_pos hm]
    simp only [drmm_rec_insert, hsearch]
    rw [if_pos (Int.natCast_nonneg _), Int.toNat_natCast, hmeq]
    simp only [show A.length - 1 + 1 = A.length from by omega, List.take_length,
      List.drop_length, Bool.false_eq_true, if_false]
    have harr : A ++ (⟨s, e⟩ : DrmmRec) :: ([] : List DrmmRec) = A ++ [⟨s, e⟩] := rfl
    rw [harr]
    rw [List.drop_eq_nil_of_le (by simp [List.length_append])]
    rw [recGetD_append_last]
    simp only [cascade]
    rw [List.take_left]
  · have hmeq : rec_merge (recGetD A (A.length - 1)) ⟨s, e⟩
        = (true, ⟨(recGetD A (A.length - 1)).off_start, e⟩) := by
      rw [hmerge]
      dsimp only
      rw [if_neg hm]
      have hmax : max e (recGetD A (A.length - 1)).off_end = e := by omega
      rw [hmax]
    rw [if_neg hm]
    simp only [drmm_rec_insert, hsearch]
    rw [if_pos (Int.natCast_nonneg _), Int.toNat_natCast, hmeq]
    have hlen2 : (A.set (A.length - 1)
        (⟨(recGetD A (A.length - 1)).off_start, e⟩ : DrmmRec)).length = A.length := by
      simp [List.length_set]
    have hget : recGetD (A.set (A.length - 1)
        (⟨(recGetD A (A.length - 1)).off_start, e⟩ : DrmmRec)) (A.length - 1)
        = ⟨(recGetD A (A.length - 1)).off_start, e⟩ := by
      rw [recGetD_eq_getElem _ _ (by rw [hlen2]; omega), List.getElem_set,
        if_pos rfl]
    simp
    rw [hget, show A.length - 1 + 1 = A.length from by omega,
      List.drop_eq_nil_of_le (le_of_eq hlen2),
      take_set_of_le A (A.length - 1) (A.length - 1) _ (Nat.le_refl _)]
    simp [cascade]

theorem insert_above_spec (A : List DrmmRec) (s e : Nat) (hwf : recsWF A)
    (hse : s ≤ e) (heU : e ≤ U64MAX) (hlt : ∀ r ∈ A, r.off_end < s) :
    recsWF (drmm_rec_insert ⟨s, e⟩ A) ∧
    0 < (drmm_rec_insert ⟨s, e⟩ A).length ∧
    (recGetD (drmm_rec_insert ⟨s, e⟩ A)
      ((drmm_rec_insert ⟨s, e⟩ A).length - 1)).off_end = e ∧
    (∀ r ∈ drmm_rec_insert ⟨s, e⟩ A, r.off_end ≤ e) ∧
    (∀ x, covered (drmm_rec_insert ⟨s, e⟩ A) x
      ↔ (covered A x ∨ (s ≤ x ∧ x ≤ e))) := by
  by_cases hA : A = []
  · subst hA
    rw [insert_nil]
    refine ⟨⟨?_, ?_⟩, by simp, rfl, ?_, ?_⟩
    · intro r hr
      rw [List.mem_singleton] at hr
      subst hr
      exact hse
    · intro i hi
      simp at hi
    · intro r hr
      rw [List.mem_singleton] at hr
      subst hr
      exact Nat.le_refl e
    · intro x
      rw [covered_singleton]
      dsimp only
      constructor
      · intro h
        exact Or.inr h
      · rintro (h | h)
        · rw [covered_iff_idx] at h
          obtain ⟨j, hj, _⟩ := h
          simp at hj
        · exact h
  · rw [insert_above_eq A s e hwf hse heU hlt hA]
    have hn : 0 < A.length := List.length_pos.mpr hA
    have hlast_mem := recGetD_mem A (A.length - 1) (by omega)
    have hlast_end := hlt _ hlast_mem
    have hlast_wf := wf_start_le_end A hwf (A.length - 1) (by omega)
    by_cases hm : (recGetD A (A.length - 1)).off_end + 1 < s
    · rw [if_pos hm]
      refine ⟨⟨?_, ?_⟩, ?_, ?_, ?_, ?_⟩
      · intro r hr
        rcases List.mem_append.mp hr with h | h
        · exact hwf.1 r h
        · rw [List.mem_singleton] at h
          subst h
          exact hse
      · intro i hi
        have hi2 : i < A.length := by
          simp [List.length_append] at hi
          omega
        rcases Nat.lt_or_ge (i + 1) A.length with h2 | h2
        · rw [recGetD_append_lt _ _ i (by omega), recGetD_append_lt _ _ (i + 1) h2]
          exact hwf.2 i (by omega)
        · have hieq : i + 1 = A.length := by omega
          rw [recGetD_append_lt _ _ i (by omega), hieq, recGetD_append_last]
          dsimp only
          have hieq2 : i = A.length - 1 := by omega
          rw [hieq2]
          exact hm
      · simp
      · rw [show (A ++ [(⟨s, e⟩ : DrmmRec)]).length - 1 = A.length from by
            simp [List.length_append], recGetD_append_last]
      · intro r hr
        rcases List.mem_append.mp hr with h | h
        · have := hlt r h
          omega
        · rw [List.mem_singleton] at h
          subst h
          exact Nat.le_refl e
      · intro x
        rw [covered_append, covered_singleton]
    · rw [if_neg hm]
      refine ⟨⟨?_, ?_⟩, ?_, ?_, ?_, ?_⟩
      · intro r hr
        rcases List.mem_append.mp hr with h | h
        · exact hwf.1 r (List.take_subset _ A h)
        · rw [List.mem_singleton] at h
          subst h
          dsimp only
          omega
      · intro i hi
        have hi2 : i < A.length - 1 := by
          simp [List.length_append, List.length_take] at hi
          omega
        rcases Nat.lt_or_ge (i + 1) (A.length - 1) with h2 | h2
        · rw [recGetD_append_lt _ _ i (by simp [List.length_take]; omega),
            recGetD_append_lt _ _ (i + 1) (by simp [List.length_take]; omega),
            recGetD_take A (A.length - 1) i (by omega) (by omega),
            recGetD_take A (A.length - 1) (i + 1) (by omega) (by omega)]
          exact hwf.2 i (by omega)
        · have hieq : i + 1 = A.length - 1 := by omega
          rw [recGetD_append_lt _ _ i (by simp [List.length_take]; omega),
            recGetD_take A (A.length - 1) i (by omega) (by omega),
            show i + 1 = (A.take (A.length - 1)).length from by
              simp [List.length_take]; omega,
            recGetD_append_last]
          dsimp only
          have h3 := hwf.2 i (by omega)
          rw [hieq] at h3
          exact h3
      · simp
      · rw [show (A.take (A.length - 1)
            ++ [(⟨(recGetD A (A.length - 1)).off_start, e⟩ : DrmmRec)]).length - 1
            = (A.take (A.length - 1)).length from by
            simp [List.length_append], recGetD_append_last]
      · intro r hr
        rcases List.mem_append.mp hr with h | h
        · have := hlt r (List.take_subset _ A h)
          omega
        · rw [List.mem_singleton] at h
          subst h
          exact Nat.le_refl e
      · intro x
        rw [covered_append, covered_singleton,
          covered_take_iff A (A.length - 1) (by omega)]
        dsimp only
        constructor
        · rintro (⟨j, hj, h1, h2⟩ | ⟨h1, h2⟩)
          · refine Or.inl ?_
            rw [covered_iff_idx]
            exact ⟨j, by omega, h1, h2⟩
          · by_cases h3 : x ≤ (recGetD A (A.length - 1)).off_end
            · refine Or.inl ?_
              rw [covered_iff_idx]
              exact ⟨A.length - 1, by omega, h1, h3⟩
            · exact Or.inr ⟨by omega, h2⟩
        · rintro (h | ⟨h1, h2⟩)
          · rw [covered_iff_idx] at h
            obtain ⟨j, hj, h1, h2⟩ := h
            rcases Nat.lt_or_ge j (A.length - 1) with h3 | h3
            · exact Or.inl ⟨j, h3, h1, h2⟩
            · have hjeq : j = A.length - 1 := by omega
              subst hjeq
              exact Or.inr ⟨h1, by omega⟩
          · exact Or.inr ⟨by omega, h2⟩

/-- C3: for every valid DRM whose sentinel starts at `S` and every new
size `N < S`, `drmf_trunc` leaves the covered byte set equal to the old
covered set intersected with `[0, N-1]`, plus the new sentinel range
`[N', U64MAX]` with `N' = min(S, N)`; the result satisfies the section
3.1 invariants. -/
theorem c3_trunc_covered (recs : List DrmmRec) (N : Nat) (hv : validDRM recs)
    (hS : N < sentinelStart recs) :
    validDRM (drmf_trunc_recs N recs) ∧
    ∀ x, x ≤ U64MAX →
      (covered (drmf_trunc_recs N recs) x ↔
        ((covered recs x ∧ x < N) ∨ min (sentinelStart recs) N ≤ x)) := by
  have hwf := validDRM_wf recs hv
  have hn : 0 < recs.length := hv.1
  have hwfbody := recsWF_take recs (recs.length - 1) hwf
  have hsave : sentinelStart recs = (recGetD recs (recs.length - 1)).off_start := rfl
  have hsentinel_end : (recGetD recs (recs.length - 1)).off_end = U64MAX := hv.2.2.2
  have hsU : sentinelStart recs ≤ U64MAX := by
    have h1 := (hv.2.1 _ (recGetD_mem recs (recs.length - 1) (by omega))).1
    rw [hsave]
    omega
  have hS2 : N < (recGetD recs (recs.length - 1)).off_start := by
    rw [← hsave]
    exact hS
  obtain ⟨htWF, htEnd, htCov⟩ :=
    truncate_spec (recs.take (recs.length - 1)) N hwfbody
  obtain ⟨hiWF, hiPos, hiLast, hiEnds, hiCov⟩ :=
    insert_above_spec (drmm_rec_truncate N (recs.take (recs.length - 1))) N U64MAX
      htWF (by omega) (Nat.le_refl U64MAX) htEnd
  simp only [drmf_trunc_recs]
  rw [if_neg (by omega : ¬ ((recGetD recs (recs.length - 1)).off_start < N))]
  constructor
  · refine ⟨hiPos, ?_, hiWF.2, hiLast⟩
    intro r hr
    exact ⟨hiWF.1 r hr, hiEnds r hr⟩
  · intro x hx
    rw [hiCov x, htCov x, show min (sentinelStart recs) N = N from by omega]
    have hdecomp : covered recs x ↔
        (covered (recs.take (recs.length - 1)) x ∨
          (sentinelStart recs ≤ x ∧ x ≤ U64MAX)) := by
      rw [covered_iff_idx, covered_take_iff recs (recs.length - 1) (by omega)]
      constructor
      · rintro ⟨j, hj, h1, h2⟩
        rcases Nat.lt_or_ge j (recs.length - 1) with h3 | h3
        · exact Or.inl ⟨j, h3, h1, h2⟩
        · have hjeq : j = recs.length - 1 := by omega
          subst hjeq
          refine Or.inr ⟨by rw [hsave]; exact h1, hx⟩
      · rintro (⟨j, hj, h1, h2⟩ | ⟨h1, h2⟩)
        · exact ⟨j, by omega, h1, h2⟩
        · refine ⟨recs.length - 1, by omega, ?_, ?_⟩
          · rw [← hsave]
            exact h1
          · rw [hsentinel_end]
            exact h2
    rw [hdecomp]
    constructor
    · rintro (⟨hcb, hxN⟩ | ⟨h1, h2⟩)
      · exact Or.inl ⟨Or.inl hcb, hxN⟩
      · exact Or.inr h1
    · rintro (⟨hcr | ⟨hs1, hs2⟩, hxN⟩ | hNx)
      · exact Or.inl ⟨hcr, hxN⟩
      · omega
      · exact Or.inr ⟨hNx, hx⟩

/-- Witness for C3 at a concrete valid map and truncation size. -/
theorem c3_trunc_covered_witness :
    validDRM [⟨0, 9⟩, ⟨20, U64MAX⟩] ∧
    (5 : Nat) < sentinelStart [⟨0, 9⟩, ⟨20, U64MAX⟩] ∧
    (validDRM (drmf_trunc_recs 5 [⟨0, 9⟩, ⟨20, U64MAX⟩]) ∧
      ∀ x, x ≤ U64MAX →
        (covered (drmf_trunc_recs 5 [⟨0, 9⟩, ⟨20, U64MAX⟩]) x ↔
          ((covered [⟨0, 9⟩, ⟨20, U64MAX⟩] x ∧ x < 5) ∨
            min (sentinelStart [⟨0, 9⟩, ⟨20, U64MAX⟩]) 5 ≤ x))) :=
  ⟨by decide, by decide,
    c3_trunc_covered [⟨0, 9⟩, ⟨20, U64MAX⟩] 5 (by decide) (by decide)⟩
